import Mathlib

/-!
Verification of the guess-scoring logic of the Wordle-style game in
`Frontend/wordie/script.js`.

The scorer `processGuess` is translated faithfully, including the
JavaScript quirks that matter on malformed input:

* the two `for (let i = 0; i < 5; i++)` loops are folds over `List.range 5`
  regardless of the actual input lengths;
* `array[i]` out of bounds is JavaScript `undefined`; we model element
  access with `l[i]?  : Option Char`, where `none` plays the role of
  `undefined` (and `none = none` mirrors `undefined === undefined`);
* the frequency object `secretLetterCount` maps keys (a letter, or the
  string `"undefined"` for an out-of-bounds access, modelled as
  `Option Char`) to JavaScript numbers; a missing entry reads as
  `undefined`, and `x--` on `undefined` or `NaN` stores `NaN`.  The
  value type `JsNum` captures exactly the three shapes that can occur.
-/

/-- Per-position verdict, as the strings `'correct' / 'present' / 'absent'`
produced by `processGuess`. -/
inductive Classification where
  | correct
  | present
  | absent
deriving DecidableEq, Repr

/-- A JavaScript number as it can appear as a value of `secretLetterCount`:
a missing entry reads as `undefined`, decrementing a missing entry stores
`NaN`, and otherwise the values are integers. -/
inductive JsNum where
  | undef
  | nan
  | int (n : Int)
deriving DecidableEq, Repr

/-- JavaScript `v > 0`: false on `undefined` and `NaN`. -/
def jsGT0 : JsNum → Bool
  | JsNum.int n => decide (0 < n)
  | _ => false

/-- JavaScript `v--` (the stored value): `undefined` and `NaN` become `NaN`. -/
def jsDec : JsNum → JsNum
  | JsNum.int n => JsNum.int (n - 1)
  | _ => JsNum.nan

/-- JavaScript `(v || 0) + 1`, used when building the frequency map. -/
def jsOrZeroSucc : JsNum → JsNum
  | JsNum.int n => if n = 0 then JsNum.int 1 else JsNum.int (n + 1)
  | _ => JsNum.int 1

/-- Iterated decrement: `jsDec` applied `d` times. -/
def jsDecN : Nat → JsNum → JsNum
  | 0, v => v
  | d + 1, v => jsDecN d (jsDec v)

/-- The frequency object: keys are letters, or the key produced by an
out-of-bounds (`undefined`) index, values are JavaScript numbers. -/
abbrev CMap := Option Char → JsNum

/-- Object property update `m[k] = v`. -/
def mapSet (m : CMap) (k : Option Char) (v : JsNum) : CMap :=
  fun q => if q = k then v else m q

/-- The `result` array under construction: JavaScript arrays are sparse, a
slot not yet assigned reads as `undefined` (`none`). -/
abbrev RMap := Nat → Option Classification

/-- Array slot assignment `result[i] = v`. -/
def rSet (r : RMap) (i : Nat) (v : Classification) : RMap :=
  fun j => if j = i then some v else r j

/-- Frequency map `secretLetterCount`: `secretArray.forEach(letter =>
secretLetterCount[letter] = (secretLetterCount[letter] || 0) + 1)`. -/
def secretLetterCount (secretArray : List Char) : CMap :=
  secretArray.foldl (fun m c => mapSet m (some c) (jsOrZeroSucc (m (some c))))
    (fun _ => JsNum.undef)

/-- One iteration of the first pass: `if (guessArray[i] === secretArray[i])
{ result[i] = 'correct'; secretLetterCount[guessArray[i]]--; }`. -/
def pass1Step (gU s : List Char) (acc : RMap × CMap) (i : Nat) : RMap × CMap :=
  if gU[i]? = s[i]? then
    (rSet acc.1 i Classification.correct,
     mapSet acc.2 gU[i]? (jsDec (acc.2 gU[i]?)))
  else acc

/-- One iteration of the second pass: skip slots already `'correct'`, then
`if (secretLetterCount[guessArray[i]] > 0) { result[i] = 'present';
secretLetterCount[guessArray[i]]--; } else { result[i] = 'absent'; }`. -/
def pass2Step (gU : List Char) (acc : RMap × CMap) (i : Nat) : RMap × CMap :=
  if acc.1 i = some Classification.correct then acc
  else if jsGT0 (acc.2 gU[i]?) then
    (rSet acc.1 i Classification.present,
     mapSet acc.2 gU[i]? (jsDec (acc.2 gU[i]?)))
  else (rSet acc.1 i Classification.absent, acc.2)

/-- State after the first pass (`result` starts as the empty array, the
frequency map is freshly built from the secret). -/
def pass1End (s gU : List Char) : RMap × CMap :=
  (List.range 5).foldl (pass1Step gU s) ((fun _ => none), secretLetterCount s)

/-- State after the first `k` iterations of the second pass. -/
def pass2State (s gU : List Char) (k : Nat) : RMap × CMap :=
  (List.range k).foldl (pass2Step gU) (pass1End s gU)

/-- The scorer applied to the already-uppercased guess array: both fixed
five-iteration passes, then the `result` array that was filled in (every
slot `0..4` has been assigned; reading uses the JS-array semantics). -/
def scoreUpper (s gU : List Char) : List Classification :=
  (List.range 5).map (fun i => ((pass2State s gU 5).1 i).getD Classification.absent)

/-- Scorer `processGuess(guess)` from `Frontend/wordie/script.js`: the secret is
`gameState.secretWord` (passed here explicitly), the guess is uppercased
(`guess.toUpperCase().split('')`); the secret is used verbatim. -/
def processGuess (secretWord guess : List Char) : List Classification :=
  scoreUpper secretWord (guess.map Char.toUpper)

/-- Win test `checkWinCondition(guess)`: `guess.toUpperCase() === gameState.secretWord`. -/
def checkWinCondition (secretWord guess : List Char) : Bool :=
  guess.map Char.toUpper == secretWord

/-- The character class `[A-Za-z]` of the validation regex. -/
def isAsciiLetter (c : Char) : Bool :=
  (decide ('A' ≤ c) && decide (c ≤ 'Z')) || (decide ('a' ≤ c) && decide (c ≤ 'z'))

/-- Caller-side validation `isValidInput(guess)`: rejects when `guess.length !== 5`, then when
`!/^[A-Za-z]+$/.test(guess)` (at least one character, all letters). -/
def isValidInput (guess : List Char) : Bool :=
  if guess.length ≠ 5 then false
  else if ¬ (!guess.isEmpty && guess.all isAsciiLetter) = true then false
  else true

/-- The part of `gameState` that scoring can see. `processGuess` reads
`gameState.secretWord` and assigns to no field. -/
structure GameState where
  secretWord : List Char
  guesses : List (List Char × List Classification)
  currentRow : Nat
  maxGuesses : Nat
  gameOver : Bool
deriving DecidableEq, Repr

/-- Scoring as a state-passing function: `processGuess` over the global `gameState`:
the body of the JavaScript function contains no assignment to `gameState`
(it only reads `gameState.secretWord`), so the state is returned unchanged. -/
def processGuessSt (st : GameState) (guess : List Char) :
    List Classification × GameState :=
  (processGuess st.secretWord guess, st)

/-- Positions classified `correct` or `present` whose (uppercased) guessed
letter is `L`, among the five output slots. -/
def cpCount (res : List Classification) (gU : List Char) (L : Char) : Nat :=
  (List.range 5).countP (fun i =>
    decide ((res[i]? = some Classification.correct ∨
             res[i]? = some Classification.present) ∧ gU[i]? = some L))

/-- Positions the output classifies `correct` whose guessed letter is `L`. -/
def correctCount (res : List Classification) (gU : List Char) (L : Char) : Nat :=
  (List.range 5).countP (fun j =>
    decide (res[j]? = some Classification.correct ∧ gU[j]? = some L))

/-- Copies of `L` remaining in the secret after the exact matches. -/
def remainAfter (s : List Char) (res : List Classification) (gU : List Char)
    (L : Char) : Nat :=
  s.count L - correctCount res gU L

/-- Occurrences of `L` at non-`correct` positions of the guess strictly
before position `i`. -/
def nonCorrectBefore (res : List Classification) (gU : List Char) (L : Char)
    (i : Nat) : Nat :=
  (List.range i).countP (fun j =>
    decide (¬ res[j]? = some Classification.correct ∧ gU[j]? = some L))

/-- Exact-match positions (first pass) whose guessed letter is `L`, stated
on the inputs. -/
def cCnt (s gU : List Char) (L : Char) : Nat :=
  (List.range 5).countP (fun j => decide (gU[j]? = s[j]? ∧ gU[j]? = some L))

/-- Copies of `L` remaining after the first pass, stated on the inputs. -/
def remCnt (s gU : List Char) (L : Char) : Nat :=
  s.count L - cCnt s gU L

/-- Non-exact-match occurrences of `L` in the guess before position `i`,
stated on the inputs. -/
def prevCnt (s gU : List Char) (L : Char) (i : Nat) : Nat :=
  (List.range i).countP (fun j => decide (¬ gU[j]? = s[j]? ∧ gU[j]? = some L))

/-- The natural number a frequency-map value stands for (`undefined` and
`NaN` behave like an exhausted count). -/
def jsNat : JsNum → Nat
  | JsNum.int n => n.toNat
  | _ => 0

/-- Representation invariant tying a frequency-map value to the count it
stands for during the second pass. -/
def p2Rep (v : JsNum) (n : Nat) : Prop :=
  jsNat v = n ∧ (jsGT0 v = true ↔ 0 < n) ∧
    (0 < n → jsDec v = JsNum.int ((n : Int) - 1))

/-- Representation invariant for the freshly built frequency map. -/
def cntRep (v : JsNum) (n : Nat) : Prop :=
  (n = 0 ∧ v = JsNum.undef) ∨ (0 < n ∧ v = JsNum.int n)

theorem jsDecN_int (d : Nat) (n : Int) : jsDecN d (JsNum.int n) = JsNum.int (n - d) := by
  induction d generalizing n with
  | zero => simp [jsDecN]
  | succ d ih =>
    show jsDecN d (jsDec (JsNum.int n)) = _
    rw [show jsDec (JsNum.int n) = JsNum.int (n - 1) from rfl, ih]
    congr 1
    omega

theorem jsDecN_zero (v : JsNum) : jsDecN 0 v = v := rfl

theorem cntRep_succ {v : JsNum} {n : Nat} (h : cntRep v n) :
    cntRep (jsOrZeroSucc v) (n + 1) := by
  rcases h with ⟨hn, hv⟩ | ⟨hn, hv⟩
  · subst hv; subst hn
    exact Or.inr ⟨Nat.succ_pos _, rfl⟩
  · subst hv
    refine Or.inr ⟨Nat.succ_pos _, ?_⟩
    have hne : ((n : Int)) ≠ 0 := by omega
    simp only [jsOrZeroSucc, if_neg hne]
    congr 1

theorem secretLetterCount_aux_none (s : List Char) (m : CMap) :
    (s.foldl (fun m c => mapSet m (some c) (jsOrZeroSucc (m (some c)))) m) none = m none := by
  induction s generalizing m with
  | nil => rfl
  | cons c t ih =>
    rw [List.foldl_cons, ih]
    simp [mapSet]

theorem secretLetterCount_none (s : List Char) : secretLetterCount s none = JsNum.undef :=
  secretLetterCount_aux_none s _

theorem secretLetterCount_aux_some (L : Char) (s : List Char) :
    ∀ (m : CMap) (n : Nat), cntRep (m (some L)) n →
    cntRep ((s.foldl (fun m c => mapSet m (some c) (jsOrZeroSucc (m (some c)))) m) (some L))
      (n + s.count L) := by
  induction s with
  | nil => intro m n h; simpa using h
  | cons c t ih =>
    intro m n h
    rw [List.foldl_cons]
    by_cases hc : c = L
    · subst hc
      have h2 : cntRep ((mapSet m (some c) (jsOrZeroSucc (m (some c)))) (some c)) (n + 1) := by
        simpa [mapSet] using cntRep_succ h
      have := ih _ _ h2
      rwa [List.count_cons, if_pos (by simp), Nat.add_comm (t.count c) 1, ← Nat.add_assoc]
    · have h2 : (mapSet m (some c) (jsOrZeroSucc (m (some c)))) (some L) = m (some L) := by
        unfold mapSet
        rw [if_neg]
        intro hEq
        exact hc (Option.some.inj hEq).symm
      have := ih _ _ (h2 ▸ h)
      rwa [List.count_cons, if_neg (by simp [hc]), Nat.add_zero]

theorem secretLetterCount_some (s : List Char) (L : Char) :
    cntRep (secretLetterCount s (some L)) (s.count L) := by
  have := secretLetterCount_aux_some L s (fun _ => JsNum.undef) 0 (Or.inl ⟨rfl, rfl⟩)
  simpa [secretLetterCount] using this

theorem pass1_fold_r (gU s : List Char) (I : List Nat) (acc : RMap × CMap) (j : Nat) :
    (I.foldl (pass1Step gU s) acc).1 j =
      if j ∈ I ∧ gU[j]? = s[j]? then some Classification.correct else acc.1 j := by
  induction I generalizing acc with
  | nil => simp
  | cons i I ih =>
    rw [List.foldl_cons, ih]
    by_cases hc : gU[i]? = s[i]?
    · simp only [pass1Step, if_pos hc, rSet]
      by_cases hji : j = i
      · subst hji
        simp [hc, List.mem_cons]
      · simp [List.mem_cons, hji]
    · simp only [pass1Step, if_neg hc]
      by_cases hji : j = i
      · subst hji
        simp [hc, List.mem_cons]
      · simp [List.mem_cons, hji]

theorem pass1_fold_m (gU s : List Char) (I : List Nat) (acc : RMap × CMap) (k : Option Char) :
    (I.foldl (pass1Step gU s) acc).2 k =
      jsDecN (I.countP (fun j => decide (gU[j]? = s[j]? ∧ gU[j]? = k))) (acc.2 k) := by
  induction I generalizing acc with
  | nil => simp [jsDecN]
  | cons i I ih =>
    rw [List.foldl_cons, ih, List.countP_cons]
    by_cases hc : gU[i]? = s[i]?
    · by_cases hk : k = gU[i]?
      · rw [if_pos (by rw [decide_eq_true_eq]; exact ⟨hc, hk.symm⟩)]
        simp only [pass1Step, if_pos hc, mapSet, if_pos hk]
        rw [hk]
        rfl
      · rw [if_neg (by rw [decide_eq_true_eq]; rintro ⟨h1, h2⟩; exact hk h2.symm),
          Nat.add_zero]
        simp only [pass1Step, if_pos hc, mapSet, if_neg hk]
    · rw [if_neg (by rw [decide_eq_true_eq]; rintro ⟨h1, h2⟩; exact hc h1), Nat.add_zero]
      simp only [pass1Step, if_neg hc]

theorem countP_pos_le_count (L : Char) :
    ∀ (s : List Char) (n : Nat),
      (List.range n).countP (fun j => decide (s[j]? = some L)) ≤ s.count L := by
  intro s
  induction s with
  | nil =>
    intro n
    have : ∀ j ∈ List.range n, ¬ (fun j => decide (([] : List Char)[j]? = some L)) j = true := by
      intro j hj
      simp
    simp [List.countP_eq_zero.mpr this]
  | cons c t ih =>
    intro n
    cases n with
    | zero => simp
    | succ n =>
      rw [List.range_succ_eq_map, List.countP_cons, List.countP_map, List.count_cons]
      have hcomp : ((fun j => decide ((c :: t)[j]? = some L)) ∘ Nat.succ) =
          (fun j => decide (t[j]? = some L)) := by
        funext j
        simp
      rw [hcomp]
      have hIH := ih n
      by_cases hc : c = L
      · subst hc
        simp only [List.getElem?_cons_zero]
        rw [if_pos (by simp), if_pos (by simp)]
        omega
      · simp only [List.getElem?_cons_zero]
        rw [if_neg (by simp [hc]), if_neg (by simp [hc])]
        omega

theorem cCnt_le_count (s gU : List Char) (L : Char) : cCnt s gU L ≤ s.count L := by
  refine Nat.le_trans (List.countP_mono_left ?_) (countP_pos_le_count L s 5)
  intro j hj hp
  rw [decide_eq_true_eq] at hp ⊢
  rw [← hp.1, hp.2]

theorem p2Rep_int (d : Nat) : p2Rep (JsNum.int (d : Int)) d := by
  refine ⟨by simp [jsNat], ?_, ?_⟩
  · simp [jsGT0]
  · intro hd
    rfl

theorem p2Rep_undef : p2Rep JsNum.undef 0 := by
  refine ⟨rfl, by simp [jsGT0], by omega⟩

theorem pass1End_r (s gU : List Char) (j : Nat) :
    (pass1End s gU).1 j =
      if j ∈ List.range 5 ∧ gU[j]? = s[j]? then some Classification.correct else none :=
  pass1_fold_r gU s (List.range 5) _ j

theorem pass1End_mRep (s gU : List Char) (L : Char) :
    p2Rep ((pass1End s gU).2 (some L)) (remCnt s gU L) := by
  have hm : (pass1End s gU).2 (some L) = jsDecN (cCnt s gU L) (secretLetterCount s (some L)) :=
    pass1_fold_m gU s (List.range 5) ((fun _ => none), secretLetterCount s) (some L)
  have hcc : cCnt s gU L ≤ s.count L := cCnt_le_count s gU L
  rcases secretLetterCount_some s L with ⟨hn, hv⟩ | ⟨hn, hv⟩
  · have hcc0 : cCnt s gU L = 0 := by omega
    rw [hm, hv, hcc0, jsDecN_zero]
    rw [show remCnt s gU L = 0 by rw [remCnt]; omega]
    exact p2Rep_undef
  · rw [hm, hv, jsDecN_int]
    rw [show ((s.count L : Int) - (cCnt s gU L : Int)) = ((remCnt s gU L : Nat) : Int) by
      rw [remCnt]; omega]
    exact p2Rep_int _

theorem prevCnt_zero (s gU : List Char) (L : Char) : prevCnt s gU L 0 = 0 := by
  simp [prevCnt]

theorem prevCnt_succ (s gU : List Char) (L : Char) (k : Nat) :
    prevCnt s gU L (k + 1) =
      prevCnt s gU L k + if ¬ gU[k]? = s[k]? ∧ gU[k]? = some L then 1 else 0 := by
  rw [prevCnt, prevCnt, List.range_succ, List.countP_append, List.countP_singleton]
  by_cases h : ¬ gU[k]? = s[k]? ∧ gU[k]? = some L
  · rw [if_pos (by rw [decide_eq_true_eq]; exact h), if_pos h]
  · rw [if_neg (by rw [decide_eq_true_eq]; exact h), if_neg h]

theorem pass2State_succ (s gU : List Char) (k : Nat) :
    pass2State s gU (k + 1) = pass2Step gU (pass2State s gU k) k := by
  rw [pass2State, pass2State, List.range_succ, List.foldl_append]
  rfl

theorem pass2_inv (s gU : List Char) (hg : gU.length = 5) :
    ∀ k, k ≤ 5 →
      (∀ j, k ≤ j → (pass2State s gU k).1 j = (pass1End s gU).1 j) ∧
      (∀ j, j < k → ∀ L, gU[j]? = some L →
        (pass2State s gU k).1 j =
          if gU[j]? = s[j]? then some Classification.correct
          else if prevCnt s gU L j < remCnt s gU L then some Classification.present
          else some Classification.absent) ∧
      (∀ L, p2Rep ((pass2State s gU k).2 (some L)) (remCnt s gU L - prevCnt s gU L k)) := by
  intro k
  induction k with
  | zero =>
    intro _
    refine ⟨fun j _ => rfl, fun j hj => absurd hj (by omega), fun L => ?_⟩
    rw [prevCnt_zero, Nat.sub_zero]
    exact pass1End_mRep s gU L
  | succ k ih =>
    intro hk5
    obtain ⟨A, B, C⟩ := ih (by omega)
    cases hNk : gU[k]? with
    | none =>
      rw [List.getElem?_eq_none_iff] at hNk
      omega
    | some L0 =>
    have hrk : (pass2State s gU k).1 k = (pass1End s gU).1 k := A k (Nat.le_refl k)
    rw [pass1End_r] at hrk
    rw [pass2State_succ]
    by_cases hcorr : gU[k]? = s[k]?
    · -- slot k was marked correct in pass 1; the step skips it
      have hrk2 : (pass2State s gU k).1 k = some Classification.correct := by
        rw [hrk, if_pos ⟨List.mem_range.mpr (by omega), hcorr⟩]
      have hstep : pass2Step gU (pass2State s gU k) k = pass2State s gU k := by
        simp only [pass2Step]
        rw [hrk2, if_pos rfl]
      rw [hstep]
      refine ⟨fun j hj => A j (by omega), ?_, fun L => ?_⟩
      · intro j hj L hL
        by_cases hjk : j < k
        · exact B j hjk L hL
        · have hjk2 : j = k := by omega
          subst hjk2
          rw [if_pos hcorr]
          exact hrk2
      · rw [prevCnt_succ, if_neg (fun h => h.1 hcorr), Nat.add_zero]
        exact C L
    · -- slot k was not an exact match
      have hrk2 : (pass2State s gU k).1 k = none := by
        rw [hrk, if_neg (fun h => hcorr h.2)]
      obtain ⟨hjn, hgt, hdec⟩ := C L0
      by_cases hpos : 0 < remCnt s gU L0 - prevCnt s gU L0 k
      · -- frequency still available: slot k becomes present, count decremented
        have hb : jsGT0 ((pass2State s gU k).2 (some L0)) = true := hgt.mpr hpos
        have hstep : pass2Step gU (pass2State s gU k) k =
            (rSet (pass2State s gU k).1 k Classification.present,
             mapSet (pass2State s gU k).2 (some L0)
               (jsDec ((pass2State s gU k).2 (some L0)))) := by
          simp only [pass2Step]
          rw [hrk2, hNk, if_neg (by simp), if_pos hb]
        rw [hstep]
        refine ⟨?_, ?_, ?_⟩
        · intro j hj
          show rSet (pass2State s gU k).1 k Classification.present j = _
          rw [rSet, if_neg (by omega)]
          exact A j (by omega)
        · intro j hj L hL
          show rSet (pass2State s gU k).1 k Classification.present j = _
          by_cases hjk : j < k
          · rw [rSet, if_neg (by omega)]
            exact B j hjk L hL
          · have hjk2 : j = k := by omega
            subst hjk2
            rw [hNk] at hL
            have hLL0 : L0 = L := Option.some.inj hL
            subst hLL0
            rw [rSet, if_pos rfl, if_neg hcorr, if_pos (by omega)]
        · intro L
          show p2Rep (mapSet (pass2State s gU k).2 (some L0)
            (jsDec ((pass2State s gU k).2 (some L0))) (some L)) _
          by_cases hLL : L = L0
          · subst hLL
            rw [mapSet, if_pos rfl, hdec hpos]
            rw [prevCnt_succ, if_pos ⟨hcorr, hNk⟩]
            rw [show JsNum.int ((remCnt s gU L - prevCnt s gU L k : Nat) - 1) =
                JsNum.int ((remCnt s gU L - (prevCnt s gU L k + 1) : Nat)) by
              congr 1; omega]
            exact p2Rep_int _
          · rw [mapSet, if_neg (fun h => hLL (Option.some.inj h))]
            rw [prevCnt_succ, if_neg (fun h => hLL (Option.some.inj (hNk ▸ h.2)).symm),
              Nat.add_zero]
            exact C L
      · -- frequency exhausted: slot k becomes absent, map unchanged
        have hngt : ¬ jsGT0 ((pass2State s gU k).2 (some L0)) = true := fun h => by
          have := hgt.mp h
          omega
        have hstep : pass2Step gU (pass2State s gU k) k =
            (rSet (pass2State s gU k).1 k Classification.absent,
             (pass2State s gU k).2) := by
          simp only [pass2Step]
          rw [hrk2, hNk, if_neg (by simp), if_neg hngt]
        rw [hstep]
        refine ⟨?_, ?_, ?_⟩
        · intro j hj
          show rSet (pass2State s gU k).1 k Classification.absent j = _
          rw [rSet, if_neg (by omega)]
          exact A j (by omega)
        · intro j hj L hL
          show rSet (pass2State s gU k).1 k Classification.absent j = _
          by_cases hjk : j < k
          · rw [rSet, if_neg (by omega)]
            exact B j hjk L hL
          · have hjk2 : j = k := by omega
            subst hjk2
            rw [hNk] at hL
            have hLL0 : L0 = L := Option.some.inj hL
            subst hLL0
            rw [rSet, if_pos rfl, if_neg hcorr, if_neg (by omega)]
        · intro L
          show p2Rep ((pass2State s gU k).2 (some L)) _
          by_cases hLL : L = L0
          · subst hLL
            rw [prevCnt_succ, if_pos ⟨hcorr, hNk⟩,
              show remCnt s gU L - (prevCnt s gU L k + 1) =
                remCnt s gU L - prevCnt s gU L k by omega]
            exact C L
          · rw [prevCnt_succ, if_neg (fun h => hLL (Option.some.inj (hNk ▸ h.2)).symm),
              Nat.add_zero]
            exact C L

theorem scoreUpper_length (s gU : List Char) : (scoreUpper s gU).length = 5 := by
  simp [scoreUpper]

theorem scoreUpper_getElem (s gU : List Char) (hg : gU.length = 5)
    (i : Nat) (hi : i < 5) (L : Char) (hL : gU[i]? = some L) :
    (scoreUpper s gU)[i]? = some
      (if gU[i]? = s[i]? then Classification.correct
       else if prevCnt s gU L i < remCnt s gU L then Classification.present
       else Classification.absent) := by
  have hB := (pass2_inv s gU hg 5 (Nat.le_refl 5)).2.1 i hi L hL
  show ((List.range 5).map
      (fun i => ((pass2State s gU 5).1 i).getD Classification.absent))[i]? = _
  rw [List.getElem?_map, List.getElem?_range hi]
  simp only [Option.map_some']
  rw [hB]
  by_cases h1 : gU[i]? = s[i]?
  · rw [if_pos h1, if_pos h1]
    rfl
  · rw [if_neg h1, if_neg h1]
    by_cases h2 : prevCnt s gU L i < remCnt s gU L
    · rw [if_pos h2, if_pos h2]
      rfl
    · rw [if_neg h2, if_neg h2]
      rfl

theorem scoreUpper_eq_replicate_of_all (s gU : List Char) (v : Classification)
    (h : ∀ i, i < 5 → (scoreUpper s gU)[i]? = some v) :
    scoreUpper s gU = List.replicate 5 v := by
  apply List.ext_getElem?
  intro n
  by_cases hn : n < 5
  · rw [h n hn, List.getElem?_replicate, if_pos hn]
  · rw [List.getElem?_eq_none (by rw [scoreUpper_length]; omega),
      List.getElem?_eq_none (by rw [List.length_replicate]; omega)]

theorem countP_add_of_disjoint {α : Type} (p q : α → Bool) (l : List α)
    (h : ∀ a ∈ l, ¬(p a = true ∧ q a = true)) :
    l.countP (fun a => p a || q a) = l.countP p + l.countP q := by
  induction l with
  | nil => simp
  | cons a t ih =>
    have ht := ih (fun b hb => h b (List.mem_cons_of_mem a hb))
    rw [List.countP_cons, List.countP_cons, List.countP_cons, ht]
    by_cases hp : p a = true <;> by_cases hq : q a = true
    · exact absurd ⟨hp, hq⟩ (h a (List.mem_cons_self a t))
    · simp [hp, hq]
      try omega
    · simp [hp, hq]
      try omega
    · simp [hp, hq]
      try omega

theorem countP_window (p : Nat → Bool) (r : Nat) :
    ∀ n, (List.range n).countP (fun i => p i && decide ((List.range i).countP p < r)) =
      min ((List.range n).countP p) r := by
  intro n
  induction n with
  | zero => simp
  | succ n ih =>
    rw [List.range_succ, List.countP_append, List.countP_append, ih,
      List.countP_singleton, List.countP_singleton]
    by_cases hp : p n = true <;> by_cases hlt : (List.range n).countP p < r
    · rw [if_pos (by simp [hp, hlt]), if_pos hp]
      omega
    · rw [if_neg (by simp [hp, hlt]), if_pos hp]
      omega
    · rw [if_neg (by simp [hp]), if_neg hp]
      omega
    · rw [if_neg (by simp [hp]), if_neg hp]
      omega

/-- Claim C1: for every 5-letter secret and every 5-letter guess, and for
every letter `L`, the number of positions that `processGuess` classifies as
`correct` or `present` and whose (uppercased) guessed letter is `L` never
exceeds the number of occurrences of `L` in the secret word. -/
theorem processGuess_letter_invariant (s g : List Char)
    (hs : s.length = 5) (hg : g.length = 5) (L : Char) :
    cpCount (processGuess s g) (g.map Char.toUpper) L ≤ s.count L := by
  have hgU : (g.map Char.toUpper).length = 5 := by simpa using hg
  show cpCount (scoreUpper s (g.map Char.toUpper)) (g.map Char.toUpper) L ≤ s.count L
  set gU := g.map Char.toUpper with hgUdef
  have hpt : ∀ i ∈ List.range 5,
      (decide (((scoreUpper s gU)[i]? = some Classification.correct ∨
                (scoreUpper s gU)[i]? = some Classification.present) ∧
               gU[i]? = some L)) =
      ((decide (gU[i]? = s[i]? ∧ gU[i]? = some L)) ||
       ((decide (¬ gU[i]? = s[i]? ∧ gU[i]? = some L)) &&
        (decide (prevCnt s gU L i < remCnt s gU L)))) := by
    intro i hi
    have hi5 : i < 5 := List.mem_range.mp hi
    cases hLi : gU[i]? with
    | none =>
      rw [List.getElem?_eq_none_iff] at hLi
      omega
    | some Li =>
      by_cases hLiL : Li = L
      · subst hLiL
        rw [scoreUpper_getElem s gU hgU i hi5 Li hLi]
        by_cases h1 : gU[i]? = s[i]?
        · have hsl : (some Li : Option Char) = s[i]? := by rw [← hLi]; exact h1
          rw [if_pos h1]
          simp [hLi, hsl]
        · have hnsl : ¬ (some Li : Option Char) = s[i]? := by rw [← hLi]; exact h1
          rw [if_neg h1]
          by_cases h2 : prevCnt s gU Li i < remCnt s gU Li
          · rw [if_pos h2]
            simp [hLi, hnsl, h2]
          · rw [if_neg h2]
            simp [hLi, hnsl, h2]
      · simp [hLi, hLiL]
  have hdisj : ∀ a ∈ List.range 5,
      ¬((decide (gU[a]? = s[a]? ∧ gU[a]? = some L)) = true ∧
        ((decide (¬ gU[a]? = s[a]? ∧ gU[a]? = some L)) &&
         (decide (prevCnt s gU L a < remCnt s gU L))) = true) := by
    rintro a ha ⟨h1, h2⟩
    rw [decide_eq_true_eq] at h1
    rw [Bool.and_eq_true, decide_eq_true_eq] at h2
    exact h2.1.1 h1.1
  rw [cpCount, List.countP_congr (fun x hx => by rw [hpt x hx]),
    countP_add_of_disjoint _ _ _ hdisj]
  have hwin : (List.range 5).countP
      (fun i => (decide (¬ gU[i]? = s[i]? ∧ gU[i]? = some L)) &&
        (decide (prevCnt s gU L i < remCnt s gU L))) ≤ remCnt s gU L := by
    have hw2 : (List.range 5).countP
        (fun i => (decide (¬ gU[i]? = s[i]? ∧ gU[i]? = some L)) &&
          (decide (prevCnt s gU L i < remCnt s gU L))) =
        min ((List.range 5).countP
          (fun j => decide (¬ gU[j]? = s[j]? ∧ gU[j]? = some L))) (remCnt s gU L) :=
      countP_window (fun j => decide (¬ gU[j]? = s[j]? ∧ gU[j]? = some L))
        (remCnt s gU L) 5
    rw [hw2]
    exact Nat.min_le_right _ _
  have h1 : (List.range 5).countP
      (fun i => decide (gU[i]? = s[i]? ∧ gU[i]? = some L)) = cCnt s gU L := rfl
  have h3 : cCnt s gU L ≤ s.count L := cCnt_le_count s gU L
  have h4 : remCnt s gU L = s.count L - cCnt s gU L := rfl
  omega

/-- Claim C2: for every 5-letter secret `S` and guess `G`, the
classification array returned by `processGuess` is all `correct` exactly
when `checkWinCondition` holds, and `checkWinCondition` tests that the
uppercased guess equals the stored secret. -/
theorem processGuess_all_correct_iff_win (s g : List Char)
    (hs : s.length = 5) (hg : g.length = 5) :
    ((processGuess s g = List.replicate 5 Classification.correct) ↔
      checkWinCondition s g = true) ∧
    (checkWinCondition s g = true ↔ g.map Char.toUpper = s) := by
  have hgU : (g.map Char.toUpper).length = 5 := by simpa using hg
  have hwin : checkWinCondition s g = true ↔ g.map Char.toUpper = s := by
    rw [checkWinCondition, beq_iff_eq]
  refine ⟨?_, hwin⟩
  rw [hwin]
  show scoreUpper s (g.map Char.toUpper) = List.replicate 5 Classification.correct ↔
    g.map Char.toUpper = s
  set gU := g.map Char.toUpper with hgUdef
  constructor
  · intro hall
    apply List.ext_getElem?
    intro n
    by_cases hn : n < 5
    · cases hLn : gU[n]? with
      | none =>
        rw [List.getElem?_eq_none_iff] at hLn
        omega
      | some Ln =>
        have hchar := scoreUpper_getElem s gU hgU n hn Ln hLn
        rw [hall, List.getElem?_replicate, if_pos hn, hLn] at hchar
        by_cases h1 : (some Ln : Option Char) = s[n]?
        · exact h1
        · rw [if_neg h1] at hchar
          by_cases h2 : prevCnt s gU Ln n < remCnt s gU Ln
          · rw [if_pos h2] at hchar
            exact absurd (Option.some.inj hchar) (by decide)
          · rw [if_neg h2] at hchar
            exact absurd (Option.some.inj hchar) (by decide)
    · rw [List.getElem?_eq_none (by omega : gU.length ≤ n),
        List.getElem?_eq_none (by omega : s.length ≤ n)]
  · intro heq
    apply scoreUpper_eq_replicate_of_all
    intro i hi
    cases hLi : gU[i]? with
    | none =>
      rw [List.getElem?_eq_none_iff] at hLi
      omega
    | some Li =>
      rw [scoreUpper_getElem s gU hgU i hi Li hLi, if_pos (by rw [heq])]

/-- Witness for claim C2 at a concrete input: the win test accepts
`"crane"` against secret `"CRANE"`, hence the score is all `correct`. -/
theorem processGuess_all_correct_iff_win_witness :
    processGuess "CRANE".toList "crane".toList =
      List.replicate 5 Classification.correct :=
  (processGuess_all_correct_iff_win "CRANE".toList "crane".toList
    (by decide) (by decide)).1.mpr (by decide)

/-- Claim C3: within each pass `processGuess` walks positions in ascending
order, so among the non-`correct` occurrences of a letter the leftmost ones
receive `present` while the remaining secret copies last, the rest
`absent`: a non-`correct` position `i` holding letter `L` is `present`
exactly when fewer earlier non-`correct` occurrences of `L` exist than
copies of `L` remaining after the exact matches; in particular
`score("ALLOY", "LLAMA")` resolves the repeated `L` and `A` with
leftmost-position priority. -/
theorem processGuess_leftmost_priority :
    (∀ (s g : List Char), s.length = 5 → g.length = 5 →
      ∀ i, i < 5 → ∀ L, (g.map Char.toUpper)[i]? = some L →
        ¬ (processGuess s g)[i]? = some Classification.correct →
        ((processGuess s g)[i]? = some Classification.present ↔
          nonCorrectBefore (processGuess s g) (g.map Char.toUpper) L i <
            remainAfter s (processGuess s g) (g.map Char.toUpper) L)) ∧
    processGuess "LLAMA".toList "ALLOY".toList =
      [Classification.present, Classification.correct, Classification.present,
       Classification.absent, Classification.absent] := by
  refine ⟨?_, by decide⟩
  intro s g hs hg i hi L hL hnc
  have hgU : (g.map Char.toUpper).length = 5 := by simpa using hg
  have hres : processGuess s g = scoreUpper s (g.map Char.toUpper) := rfl
  rw [hres] at hnc ⊢
  set gU := g.map Char.toUpper with hgUdef
  have hcorr_iff : ∀ j, j < 5 →
      ((scoreUpper s gU)[j]? = some Classification.correct ↔ gU[j]? = s[j]?) := by
    intro j hj
    cases hLj : gU[j]? with
    | none =>
      rw [List.getElem?_eq_none_iff] at hLj
      omega
    | some Lj =>
      rw [scoreUpper_getElem s gU hgU j hj Lj hLj, hLj]
      by_cases h1 : (some Lj : Option Char) = s[j]?
      · rw [if_pos h1]
        simp [h1]
      · rw [if_neg h1]
        by_cases h2 : prevCnt s gU Lj j < remCnt s gU Lj
        · rw [if_pos h2]
          simp [h1]
        · rw [if_neg h2]
          simp [h1]
  have hcc : correctCount (scoreUpper s gU) gU L = cCnt s gU L := by
    apply List.countP_congr
    intro j hj
    have hj5 : j < 5 := List.mem_range.mp hj
    rw [decide_eq_true_eq, decide_eq_true_eq]
    exact and_congr_left (fun _ => hcorr_iff j hj5)
  have hrem : remainAfter s (scoreUpper s gU) gU L = remCnt s gU L := by
    rw [remainAfter, remCnt, hcc]
  have hnb : nonCorrectBefore (scoreUpper s gU) gU L i = prevCnt s gU L i := by
    apply List.countP_congr
    intro j hj
    have hj5 : j < 5 := by
      have := List.mem_range.mp hj
      omega
    rw [decide_eq_true_eq, decide_eq_true_eq]
    exact and_congr_left (fun _ => not_congr (hcorr_iff j hj5))
  rw [hnb, hrem]
  have h1 : ¬ gU[i]? = s[i]? := by
    intro h
    exact hnc (by rw [scoreUpper_getElem s gU hgU i hi L hL, if_pos h])
  rw [scoreUpper_getElem s gU hgU i hi L hL, if_neg h1]
  by_cases h2 : prevCnt s gU L i < remCnt s gU L
  · rw [if_pos h2]
    simp [h2]
  · rw [if_neg h2]
    simp [h2]

/-- Witness for claim C3 at a concrete input: in secret `"SPEED"` versus
guess `"ERASE"`, the second `E` (position 4) is non-`correct` and only one
earlier non-`correct` `E` exists against two remaining `E`s, so it is
classified `present`. -/
theorem processGuess_leftmost_priority_witness :
    (processGuess "SPEED".toList "ERASE".toList)[4]? =
      some Classification.present :=
  ((processGuess_leftmost_priority).1 "SPEED".toList "ERASE".toList
    (by decide) (by decide) 4 (by decide) 'E' (by decide) (by decide)).mpr
    (by decide)

/-- Claim C6: for every 5-letter secret and guess sharing no letters (no
uppercased guess letter occurs in the secret), every position is `absent`. -/
theorem processGuess_disjoint_all_absent (s g : List Char)
    (hs : s.length = 5) (hg : g.length = 5)
    (hdisj : ∀ c ∈ g.map Char.toUpper, ¬ c ∈ s) :
    processGuess s g = List.replicate 5 Classification.absent := by
  have hgU : (g.map Char.toUpper).length = 5 := by simpa using hg
  show scoreUpper s (g.map Char.toUpper) = _
  set gU := g.map Char.toUpper with hgUdef
  apply scoreUpper_eq_replicate_of_all
  intro i hi
  cases hLi : gU[i]? with
  | none =>
    rw [List.getElem?_eq_none_iff] at hLi
    omega
  | some Li =>
    have hmem : Li ∈ gU := List.getElem?_mem hLi
    have hLs : ¬ Li ∈ s := hdisj Li hmem
    have hcount : s.count Li = 0 := List.count_eq_zero.mpr hLs
    have h1 : ¬ gU[i]? = s[i]? := by
      intro h
      cases hsi : s[i]? with
      | none =>
        rw [List.getElem?_eq_none_iff] at hsi
        omega
      | some c =>
        rw [hLi, hsi] at h
        have hLc : Li = c := Option.some.inj h
        subst hLc
        exact hLs (List.getElem?_mem hsi)
    have h2 : remCnt s gU Li = 0 := by
      rw [remCnt, hcount]
      omega
    rw [scoreUpper_getElem s gU hgU i hi Li hLi, if_neg h1, if_neg (by omega)]

/-- Witness for claim C6 at a concrete input: `"JUMPS"` shares no letter
with `"CRANE"`, so every position is `absent`. -/
theorem processGuess_disjoint_all_absent_witness :
    processGuess "CRANE".toList "JUMPS".toList =
      List.replicate 5 Classification.absent :=
  processGuess_disjoint_all_absent "CRANE".toList "JUMPS".toList
    (by decide) (by decide) (by decide)

/-- Claim C10: on 5-character uppercase inputs, `processGuess` returns an
array of exactly 5 classifications, and a guessed letter absent from the
secret (whose frequency-map entry is the missing-key `undefined`) is safely
classified `absent` rather than faulting. -/
theorem processGuess_total_safe (s g : List Char)
    (hs : s.length = 5) (hg : g.length = 5)
    (hsU : ∀ c ∈ s, 'A' ≤ c ∧ c ≤ 'Z') (hgUp : ∀ c ∈ g, 'A' ≤ c ∧ c ≤ 'Z') :
    (processGuess s g).length = 5 ∧
    (∀ i, i < 5 → ∀ L, (g.map Char.toUpper)[i]? = some L → s.count L = 0 →
      (processGuess s g)[i]? = some Classification.absent) := by
  refine ⟨scoreUpper_length s _, ?_⟩
  intro i hi L hL hcnt
  have hgU : (g.map Char.toUpper).length = 5 := by simpa using hg
  have h1 : ¬ (g.map Char.toUpper)[i]? = s[i]? := by
    intro h
    cases hsi : s[i]? with
    | none =>
      rw [List.getElem?_eq_none_iff] at hsi
      omega
    | some c =>
      rw [hL, hsi] at h
      have hLc : L = c := Option.some.inj h
      subst hLc
      exact absurd (List.getElem?_mem hsi) (List.count_eq_zero.mp hcnt)
  have h2 : remCnt s (g.map Char.toUpper) L = 0 := by
    rw [remCnt, hcnt]
    omega
  show (scoreUpper s (g.map Char.toUpper))[i]? = _
  rw [scoreUpper_getElem s (g.map Char.toUpper) hgU i hi L hL, if_neg h1,
    if_neg (by omega)]

/-- Witness for claim C10 at a concrete input: `"JUMBO"` against `"CRANE"`;
the `J` at position 0 does not occur in the secret and is `absent`. -/
theorem processGuess_total_safe_witness :
    (processGuess "CRANE".toList "JUMBO".toList).length = 5 ∧
    (processGuess "CRANE".toList "JUMBO".toList)[0]? =
      some Classification.absent :=
  ⟨(processGuess_total_safe "CRANE".toList "JUMBO".toList
      (by decide) (by decide) (by decide) (by decide)).1,
   (processGuess_total_safe "CRANE".toList "JUMBO".toList
      (by decide) (by decide) (by decide) (by decide)).2 0 (by decide) 'J'
      (by decide) (by decide)⟩

/-- Witness for claim C1 at a concrete input: secret `"SPEED"`, guess
`"ERASE"`, letter `E`. -/
theorem processGuess_letter_invariant_witness :
    ("SPEED".toList.length = 5) ∧ ("ERASE".toList.length = 5) ∧
    cpCount (processGuess "SPEED".toList "ERASE".toList)
      ("ERASE".toList.map Char.toUpper) 'E' ≤ "SPEED".toList.count 'E' :=
  ⟨by decide, by decide,
   processGuess_letter_invariant "SPEED".toList "ERASE".toList
     (by decide) (by decide) 'E'⟩

/-- Counterexample to claim C4 as stated: with secret `"SPEED"` and guess
`"ERASE"`, the scorer does not return
`[present, absent, absent, present, absent]`. -/
theorem processGuess_speed_erase_not_spec :
    ¬ processGuess "SPEED".toList "ERASE".toList =
      [Classification.present, Classification.absent, Classification.absent,
       Classification.present, Classification.absent] := by decide

/-- Claim C4 amended: with secret `"SPEED"` and guess `"ERASE"`, the scorer
returns `[present, absent, absent, present, present]`: the secret has two
`E`s, so the `E` at position 4 is also `present`. -/
theorem processGuess_speed_erase :
    processGuess "SPEED".toList "ERASE".toList =
      [Classification.present, Classification.absent, Classification.absent,
       Classification.present, Classification.present] := by decide

/-- Counterexample to claim C5 as stated: with secret `"CRANE"` and guess
`"TRACE"`, the scorer does not return
`[absent, correct, present, present, correct]`. -/
theorem processGuess_crane_trace_not_spec :
    ¬ processGuess "CRANE".toList "TRACE".toList =
      [Classification.absent, Classification.correct, Classification.present,
       Classification.present, Classification.correct] := by decide

/-- Claim C5 amended: with secret `"CRANE"` and guess `"TRACE"`, the scorer
returns `[absent, correct, correct, present, correct]`: the `A` at
position 2 is an exact match, hence `correct`, not `present`. -/
theorem processGuess_crane_trace :
    processGuess "CRANE".toList "TRACE".toList =
      [Classification.absent, Classification.correct, Classification.correct,
       Classification.present, Classification.correct] := by decide

/-- Counterexample to claim C7 as stated: on the malformed (2-letter) guess
`"AB"` the scorer does not fail fast; it silently returns an ordinary
5-element classification array. -/
theorem processGuess_malformed_still_scores :
    ("AB".toList.length ≠ 5) ∧
    processGuess "CRANE".toList "AB".toList =
      [Classification.present, Classification.absent, Classification.absent,
       Classification.absent, Classification.absent] := by decide

/-- Claim C7 amended: the scorer itself never validates and never fails: on
any input it returns a 5-element classification array (out-of-range reads
behave as `undefined` and end up `absent` unless both words lack the
position). Validation happens in the caller, `isValidInput`, which accepts
exactly the 5-letter alphabetic guesses. -/
theorem processGuess_no_fail_fast (s g : List Char) :
    (processGuess s g).length = 5 ∧
    (isValidInput g = true ↔ g.length = 5 ∧ ∀ c ∈ g, isAsciiLetter c = true) := by
  refine ⟨scoreUpper_length s _, ?_⟩
  constructor
  · intro hv
    by_cases h5 : g.length ≠ 5
    · rw [isValidInput, if_pos h5] at hv
      exact absurd hv (by decide)
    · have h5x : g.length = 5 := not_not.mp h5
      refine ⟨h5x, ?_⟩
      rw [isValidInput, if_neg h5] at hv
      by_cases hA : (!g.isEmpty && g.all isAsciiLetter) = true
      · have hA2 := hA
        rw [Bool.and_eq_true] at hA2
        exact fun c hc => List.all_eq_true.mp hA2.2 c hc
      · rw [if_pos hA] at hv
        exact absurd hv (by decide)
  · rintro ⟨h5, hall⟩
    have hne : g ≠ [] := by
      intro he
      rw [he] at h5
      exact absurd h5 (by decide)
    have hA : (!g.isEmpty && g.all isAsciiLetter) = true := by
      rw [Bool.and_eq_true]
      refine ⟨?_, List.all_eq_true.mpr hall⟩
      cases g with
      | nil => exact absurd rfl hne
      | cons a t => rfl
    rw [isValidInput, if_neg (fun h => h h5), if_neg (fun h => h hA)]

/-- Witness for the amended claim C7 at a concrete input: scoring the
malformed guess `"AB"` still yields 5 slots, and `isValidInput` rejects it. -/
theorem processGuess_no_fail_fast_witness :
    (processGuess "CRANE".toList "AB".toList).length = 5 ∧
    isValidInput "AB".toList = false :=
  ⟨(processGuess_no_fail_fast "CRANE".toList "AB".toList).1, by decide⟩

/-- Counterexample to claim C8 as stated: the secrets `"crane"` and `"CRANE"` differ
only in letter case, yet as secrets they classify the same guess
differently — the scorer never uppercases the secret. -/
theorem processGuess_secret_case_sensitive :
    ("crane".toList.map Char.toUpper = "CRANE".toList) ∧
    ¬ processGuess "crane".toList "CRANE".toList =
        processGuess "CRANE".toList "CRANE".toList := by decide

/-- Claim C8 amended: the scorer is case-insensitive in the guess argument
only: guesses equal up to case give identical classifications against any
secret (the secret is normalized once, at fetch time, not by the scorer). -/
theorem processGuess_guess_case_insensitive (s g1 g2 : List Char)
    (h : g1.map Char.toUpper = g2.map Char.toUpper) :
    processGuess s g1 = processGuess s g2 := by
  show scoreUpper s (g1.map Char.toUpper) = scoreUpper s (g2.map Char.toUpper)
  rw [h]

/-- Witness for the amended claim C8 at a concrete input: a mixed-case guess. -/
theorem processGuess_guess_case_insensitive_witness :
    processGuess "CRANE".toList "cRaNe".toList =
      processGuess "CRANE".toList "CRANE".toList :=
  processGuess_guess_case_insensitive "CRANE".toList "cRaNe".toList
    "CRANE".toList (by decide)

/-- Claim C9: scoring is deterministic and idempotent and leaves the game
state (including the secret word) untouched: the state-passing version of
`processGuess` returns the state unchanged, and a second call on that
state with the same guess returns the same classification array. -/
theorem processGuessSt_pure (st : GameState) (g : List Char) :
    (processGuessSt st g).2 = st ∧
    (processGuessSt ((processGuessSt st g).2) g).1 = (processGuessSt st g).1 :=
  ⟨rfl, rfl⟩
